import Mathlib

/-!
Shallow embedding of the Merkle tree implementation in `src/main.rs`
(`MerkleTree`, its constructors, proof generation/verification and
incremental append) together with proofs of the specification claims.

Modelling choices:
* A Keccak-256 digest is modelled as a free term algebra `Hash`:
  `Hash.one v` stands for `hash_one(v)` (the digest of the little-endian
  serialization of the scalar `v`) and `Hash.pair l r` stands for
  `hash_multiple(&[l, r])` (the digest of the concatenation `l ‖ r`).
  This is the standard idealization of a collision-resistant hash: two
  digests are equal exactly when they were produced from the same inputs.
* Scalar values (`u32` in the demo entry point, any fixed-width integer via
  the `Serializable` trait) are modelled as `Nat`; the claims never mix
  integer widths, and within one width the little-endian serialization is
  injective, so `Hash.one` being injective on `Nat` is faithful.
* Machine `usize` arithmetic (`index / 2`, `index % 2`, lengths) is `Nat`
  arithmetic; all quantities involved are small array indices, far from
  overflow.
* Rust panics (out-of-bounds indexing) are modelled with `Except Unit`:
  `.error ()` marks the operation panicking, `.ok` its normal result.
-/

/-- Free algebra of digests: `one v` models `hash_one(v)` (Keccak-256 of the
little-endian bytes of `v`), `pair l r` models `hash_multiple(&[l, r])`
(Keccak-256 of the 64-byte concatenation). Equality of constructor terms
models byte-wise digest equality under the no-collision idealization. -/
inductive Hash where
  | one (v : Nat) : Hash
  | pair (l r : Hash) : Hash
deriving DecidableEq, Repr

/-- Embeds `hash_one` from `src/main.rs`: the digest of a single scalar. -/
def hash_one (n : Nat) : Hash := Hash.one n

/-- Embeds `hash_multiple` from `src/main.rs`. In the source it takes a slice
of digests and feeds each to the hasher; every call site passes exactly two
digests, so it is modelled as the binary combine. -/
def hash_multiple (left right : Hash) : Hash := Hash.pair left right

/-- Embeds `create_initial_level`: hash each input value in order, then
duplicate the last digest if the level has odd length. The duplicated entry
`level[level.len()-1]` is the last element of the (nonempty, odd-length)
list, written here with `getLastD` (the default is never used). -/
def create_initial_level (initial_vals : List Nat) : List Hash :=
  let level := initial_vals.map (fun i => hash_one i)
  if level.length % 2 = 1 then level ++ [level.getLastD (hash_one 0)] else level

/-- Pairwise combine, embedding the loop `for i in (0..prev_level.len()-1).step_by(2)`
of `calculate_next_level`: consecutive digests are paired; with an odd-length
input the final element is not visited (the range stops at `len-1`), and with
an empty input the early return yields the empty level. -/
def pairUp : List Hash → List Hash
  | left :: right :: rest => hash_multiple left right :: pairUp rest
  | _ => []

/-- Embeds `calculate_next_level`: pair up the previous level, then duplicate
the last entry if the result has odd length greater than one (a length-1
level is the root and is never padded). -/
def calculate_next_level (prev_level : List Hash) : List Hash :=
  let next_level := pairUp prev_level
  if 1 < next_level.length ∧ next_level.length % 2 = 1 then
    next_level ++ [next_level.getLastD (hash_one 0)]
  else next_level

/-- Fuel-indexed unfolding of the construction loop
`while levels[i].len() > 1 { levels.push(calculate_next_level(&levels[i])) }`:
each iteration pushes the next level; the loop stops at a level of length at
most one. `calculate_next_level` strictly shrinks a level of length at least
two, so fuel equal to the starting length suffices (see `buildLevelsAux_congr`). -/
def buildLevelsAux : Nat → List Hash → List (List Hash)
  | 0, level => [level]
  | fuel + 1, level =>
    if 1 < level.length then level :: buildLevelsAux fuel (calculate_next_level level)
    else [level]

/-- The list of levels produced by the construction loop, starting from the
given bottom level. -/
def buildLevels (level : List Hash) : List (List Hash) :=
  buildLevelsAux level.length level

/-- Embeds `struct MerkleTree { levels: Vec<Vec<Hash>> }`. -/
structure MerkleTree where
  levels : List (List Hash)
deriving DecidableEq, Repr

/-- Embeds `MerkleTree::create_from_values`: build the initial (leaf) level,
then fold upward until a level of length at most one is reached. -/
def MerkleTree.create_from_values (initial_vals : List Nat) : MerkleTree :=
  ⟨buildLevels (create_initial_level initial_vals)⟩

/-- Embeds `MerkleTree::height`: the number of levels, root included. -/
def MerkleTree.height (t : MerkleTree) : Nat := t.levels.length

/-- Embeds `MerkleTree::leafs`, which returns `&self.levels[0]`. Trees built
by the public API always have at least one level, where `headD []` agrees
with the indexing; the `[]` default stands for the (unreachable) panic. -/
def MerkleTree.leafs (t : MerkleTree) : List Hash := t.levels.headD []

/-- Embeds `MerkleTree::num_elements`: the number of leaf digests. -/
def MerkleTree.num_elements (t : MerkleTree) : Nat := t.leafs.length

/-- Embeds `MerkleTree::root`. `self.levels.last()` missing yields `.ok none`;
when a last level exists the source indexes `root_level[0]`, which panics
(`.error ()`) if that level is empty, and otherwise returns its head. -/
def MerkleTree.root (t : MerkleTree) : Except Unit (Option Hash) :=
  match t.levels.getLast? with
  | some root_level =>
    match root_level.head? with
    | some h => .ok (some h)
    | none => .error ()
  | none => .ok none

/-- Embeds `Iterator::position` as used in `leaf_index_for_element`: the
index of the first element satisfying the predicate, if any. -/
def iterPosition (p : Hash → Bool) : List Hash → Option Nat
  | [] => none
  | h :: rest => if p h then some 0 else (iterPosition p rest).map (· + 1)

/-- Embeds `MerkleTree::leaf_index_for_element`: hash the element and linearly
search the leaf level for the first matching digest. -/
def MerkleTree.leaf_index_for_element (t : MerkleTree) (element : Nat) : Option Nat :=
  iterPosition (fun h => h = hash_one element) t.leafs

/-- Embeds `MerkleTree::contains_hash`: whether any level contains the digest. -/
def MerkleTree.contains_hash (t : MerkleTree) (hash : Hash) : Bool :=
  t.levels.any (fun level => decide (hash ∈ level))

/-- Embeds the sibling-collecting loop of `generate_proof` over
`levels.iter().take(height - 1)`: at each level the sibling is at `index+1`
for even `index` and `index-1` for odd `index`; out-of-bounds indexing is the
panic case `none`; the index is halved between levels. -/
def proofSiblings : List (List Hash) → Nat → Option (List Hash)
  | [], _ => some []
  | level :: rest, index =>
    match level.get? (if index % 2 = 0 then index + 1 else index - 1) with
    | some sibling => (proofSiblings rest (index / 2)).map (fun proof => sibling :: proof)
    | none => none

/-- Embeds `MerkleTree::generate_proof`: resolve the leaf index (absent value
gives `.ok none`), then collect one sibling per level below the root;
`.error ()` is the panic on an out-of-bounds sibling access. -/
def MerkleTree.generate_proof (t : MerkleTree) (element : Nat) :
    Except Unit (Option (List Hash × Nat)) :=
  match t.leaf_index_for_element element with
  | none => .ok none
  | some leaf_index =>
    match proofSiblings (t.levels.take (t.height - 1)) leaf_index with
    | some proof => .ok (some (proof, leaf_index))
    | none => .error ()

/-- Embeds the recombination loop of `verify_proof`: fold the proof entries
into the running hash, concatenation order decided by the parity of the
running index, which is halved at each step. -/
def verifyLoop : Hash → Nat → List Hash → Hash
  | hash, _, [] => hash
  | hash, index, p :: rest =>
    verifyLoop (if index % 2 = 0 then hash_multiple hash p else hash_multiple p hash)
      (index / 2) rest

/-- Embeds `MerkleTree::verify_proof`: recombine the element's digest with the
proof and compare with the tree's current root; a tree with no levels gives
`false`, and the panic of `root` propagates. -/
def MerkleTree.verify_proof (t : MerkleTree) (element : Nat) (index : Nat)
    (proof : List Hash) : Except Unit Bool :=
  match t.root with
  | .error e => .error e
  | .ok none => .ok false
  | .ok (some root) => .ok (decide (verifyLoop (hash_one element) index proof = root))

/-- Embeds `MerkleTree::add_element`: push the new digest onto the leaf level,
duplicate it if the leaf count became odd, then rebuild every level from the
(updated) leaf level with the same loop as construction, replacing `levels`. -/
def MerkleTree.add_element (t : MerkleTree) (element : Nat) : MerkleTree :=
  let hash := hash_one element
  let pushed := t.leafs ++ [hash]
  let leafs0 := if pushed.length % 2 = 1 then pushed ++ [hash] else pushed
  ⟨buildLevels leafs0⟩

/-- Trees reachable through the public API: built by `create_from_values` and
mutated only by `add_element`. -/
inductive Reachable : MerkleTree → Prop where
  | create (initial_vals : List Nat) : Reachable (MerkleTree.create_from_values initial_vals)
  | add (t : MerkleTree) (element : Nat) : Reachable t → Reachable (t.add_element element)

/-! Basic lemmas about the level-construction primitives. -/

lemma pairUp_length : ∀ l : List Hash, (pairUp l).length = l.length / 2
  | [] => rfl
  | [_] => by simp [pairUp]
  | _ :: _ :: rest => by
    simp only [pairUp, List.length_cons, pairUp_length rest]
    omega

lemma pairUp_get? : ∀ (l : List Hash) (i : Nat),
    (pairUp l).get? i =
      (l.get? (2 * i)).bind (fun a => (l.get? (2 * i + 1)).map (fun b => hash_multiple a b))
  | [], i => by simp [pairUp]
  | [a], i => by
    cases i with
    | zero => simp [pairUp]
    | succ j => simp [pairUp]
  | a :: b :: rest, 0 => by simp [pairUp]
  | a :: b :: rest, (i + 1) => by
    have h2 : 2 * (i + 1) = 2 * i + 1 + 1 := by omega
    simp only [pairUp, h2, List.get?_cons_succ]
    exact pairUp_get? rest i

lemma calculate_next_level_length (l : List Hash) :
    (calculate_next_level l).length =
      if 1 < l.length / 2 ∧ (l.length / 2) % 2 = 1 then l.length / 2 + 1 else l.length / 2 := by
  unfold calculate_next_level
  simp only [pairUp_length]
  split
  · simp [pairUp_length]
  · simp [pairUp_length]

lemma calculate_next_level_length_lt (l : List Hash) (h : 2 ≤ l.length) :
    (calculate_next_level l).length < l.length := by
  rw [calculate_next_level_length]
  split <;> omega

lemma calculate_next_level_length_pos (l : List Hash) (h : 2 ≤ l.length) :
    1 ≤ (calculate_next_level l).length := by
  rw [calculate_next_level_length]
  split <;> omega

lemma calculate_next_level_parity (l : List Hash) (h : 2 ≤ l.length) :
    (calculate_next_level l).length % 2 = 0 ∨ (calculate_next_level l).length = 1 := by
  rw [calculate_next_level_length]
  split <;> omega

lemma calculate_next_level_get?_lt (l : List Hash) (i : Nat) (h : i < (pairUp l).length) :
    (calculate_next_level l).get? i = (pairUp l).get? i := by
  rw [show calculate_next_level l =
      (if 1 < (pairUp l).length ∧ (pairUp l).length % 2 = 1 then
        pairUp l ++ [(pairUp l).getLastD (hash_one 0)]
      else pairUp l) from rfl]
  split
  · exact List.get?_append h
  · rfl

lemma buildLevelsAux_congr :
    ∀ f1 f2 (l : List Hash), l.length ≤ f1 → l.length ≤ f2 →
      buildLevelsAux f1 l = buildLevelsAux f2 l := by
  intro f1
  induction f1 with
  | zero =>
    intro f2 l h1 h2
    have hl : ¬ 1 < l.length := by omega
    cases f2 with
    | zero => rfl
    | succ g => simp [buildLevelsAux, hl]
  | succ f ih =>
    intro f2 l h1 h2
    cases f2 with
    | zero =>
      have hl : ¬ 1 < l.length := by omega
      simp [buildLevelsAux, hl]
    | succ g =>
      by_cases hl : 1 < l.length
      · have hlt := calculate_next_level_length_lt l (by omega)
        simp only [buildLevelsAux, if_pos hl]
        rw [ih g (calculate_next_level l) (by omega) (by omega)]
      · simp [buildLevelsAux, hl]

lemma buildLevels_step (l : List Hash) (h : 1 < l.length) :
    buildLevels l = l :: buildLevels (calculate_next_level l) := by
  have hlt := calculate_next_level_length_lt l (by omega)
  obtain ⟨m, hm⟩ : ∃ m, l.length = m + 1 := ⟨l.length - 1, by omega⟩
  unfold buildLevels
  rw [hm]
  simp only [buildLevelsAux, if_pos h]
  rw [buildLevelsAux_congr m (calculate_next_level l).length (calculate_next_level l)
    (by omega) le_rfl]

lemma buildLevels_base (l : List Hash) (h : l.length ≤ 1) : buildLevels l = [l] := by
  match l with
  | [] => rfl
  | [a] => rfl
  | a :: b :: rest => simp at h

lemma buildLevels_ne_nil (l : List Hash) : buildLevels l ≠ [] := by
  by_cases h : 1 < l.length
  · rw [buildLevels_step l h]; simp
  · rw [buildLevels_base l (by omega)]; simp

lemma buildLevels_headD (l : List Hash) : (buildLevels l).headD [] = l := by
  by_cases h : 1 < l.length
  · rw [buildLevels_step l h]; rfl
  · rw [buildLevels_base l (by omega)]; rfl

lemma buildLevels_get?_zero (l : List Hash) : (buildLevels l).get? 0 = some l := by
  by_cases h : 1 < l.length
  · rw [buildLevels_step l h]; rfl
  · rw [buildLevels_base l (by omega)]; rfl

lemma getLast?_cons_of_ne_nil {α : Type} (a : α) (L : List α) (h : L ≠ []) :
    (a :: L).getLast? = L.getLast? := by
  cases L with
  | nil => exact absurd rfl h
  | cons b M => simp [List.getLast?_cons_cons]

/-- Every run of the construction loop on an even-length, nonempty bottom
level ends in a singleton level: the root level has exactly one digest. -/
lemma buildLevels_getLast_singleton :
    ∀ n (l : List Hash), l.length = n → l.length % 2 = 0 → 1 ≤ l.length →
      ∃ r, (buildLevels l).getLast? = some [r] := by
  intro n
  induction n using Nat.strong_induction_on with
  | _ n ih =>
    intro l hn heven hpos
    have h2 : 2 ≤ l.length := by omega
    have hstep := buildLevels_step l (by omega)
    have hlt := calculate_next_level_length_lt l h2
    have hpos' := calculate_next_level_length_pos l h2
    rcases calculate_next_level_parity l h2 with hpar | hone
    · obtain ⟨r, hr⟩ := ih (calculate_next_level l).length (by omega)
        (calculate_next_level l) rfl hpar (by omega)
      refine ⟨r, ?_⟩
      rw [hstep, getLast?_cons_of_ne_nil _ _ (buildLevels_ne_nil _), hr]
    · obtain ⟨r, hr⟩ : ∃ r, calculate_next_level l = [r] := by
        cases hcl : calculate_next_level l with
        | nil => rw [hcl] at hone; simp at hone
        | cons r rest =>
          rw [hcl] at hone
          simp at hone
          exact ⟨r, by rw [hone]⟩
      refine ⟨r, ?_⟩
      rw [hstep, getLast?_cons_of_ne_nil _ _ (buildLevels_ne_nil _), hr,
        buildLevels_base [r] (by simp)]
      rfl

/-- Structure of the stored levels: below the top, every level has even
length greater than one and the next level is its `calculate_next_level`;
the top level has length at most one. -/
lemma buildLevels_chain :
    ∀ n (l : List Hash), l.length = n → l.length % 2 = 0 →
      ∀ k lk, (buildLevels l).get? k = some lk →
        (k + 1 < (buildLevels l).length →
          1 < lk.length ∧ lk.length % 2 = 0 ∧
          (buildLevels l).get? (k + 1) = some (calculate_next_level lk)) ∧
        (k + 1 = (buildLevels l).length → lk.length ≤ 1) := by
  intro n
  induction n using Nat.strong_induction_on with
  | _ n ih =>
    intro l hn heven k lk hk
    by_cases hlen : 1 < l.length
    · have h2 : 2 ≤ l.length := by omega
      have hstep := buildLevels_step l hlen
      have hlt := calculate_next_level_length_lt l h2
      have hpos' := calculate_next_level_length_pos l h2
      rw [hstep] at hk
      have hBpos : 0 < (buildLevels (calculate_next_level l)).length :=
        List.length_pos.mpr (buildLevels_ne_nil _)
      cases k with
      | zero =>
        simp only [List.get?_cons_zero, Option.some.injEq] at hk
        subst hk
        constructor
        · intro _
          refine ⟨hlen, heven, ?_⟩
          rw [hstep]
          simpa using buildLevels_get?_zero (calculate_next_level l)
        · intro habs
          rw [hstep] at habs
          simp only [List.length_cons] at habs
          omega
      | succ j =>
        simp only [List.get?_cons_succ] at hk
        rcases calculate_next_level_parity l h2 with hpar | hone
        · have := ih (calculate_next_level l).length (by omega)
            (calculate_next_level l) rfl hpar j lk hk
          constructor
          · intro hlt2
            rw [hstep] at hlt2
            simp only [List.length_cons] at hlt2
            obtain ⟨ha, hb, hc⟩ := this.1 (by omega)
            exact ⟨ha, hb, by rw [hstep]; simpa using hc⟩
          · intro heq
            rw [hstep] at heq
            simp only [List.length_cons] at heq
            exact this.2 (by omega)
        · have hbase : buildLevels (calculate_next_level l) = [calculate_next_level l] :=
            buildLevels_base _ (by omega)
          rw [hbase] at hk
          cases j with
          | zero =>
            simp only [List.get?_cons_zero, Option.some.injEq] at hk
            subst hk
            constructor
            · intro hlt2
              rw [hstep, hbase] at hlt2
              simp at hlt2
            · intro _
              omega
          | succ j' => simp [List.get?] at hk
    · have hbase := buildLevels_base l (by omega)
      rw [hbase] at hk
      cases k with
      | zero =>
        simp only [List.get?_cons_zero, Option.some.injEq] at hk
        subst hk
        rw [hbase]
        exact ⟨fun h => by simp at h, fun _ => by omega⟩
      | succ j => simp [List.get?] at hk

lemma clog_two_double (m : Nat) (hm : 1 ≤ m) :
    Nat.clog 2 (2 * m) = Nat.clog 2 m + 1 := by
  rcases Nat.lt_or_ge m 2 with h1 | h2
  · have : m = 1 := by omega
    subst this
    rw [Nat.clog_one_right, Nat.clog_eq_one (by norm_num) (by norm_num)]
  · apply le_antisymm
    · rw [← Nat.le_pow_iff_clog_le (by norm_num), pow_succ]
      have := Nat.le_pow_clog (b := 2) (by norm_num) m
      omega
    · by_contra hc
      push_neg at hc
      have hle : Nat.clog 2 (2 * m) ≤ Nat.clog 2 m := by omega
      have h1 : 2 * m ≤ 2 ^ Nat.clog 2 (2 * m) := Nat.le_pow_clog (by norm_num) _
      have h2' : (2 : Nat) ^ Nat.clog 2 (2 * m) ≤ 2 ^ Nat.clog 2 m :=
        Nat.pow_le_pow_right (by norm_num) hle
      have h3 : 2 ^ (Nat.clog 2 m - 1) < m := Nat.pow_pred_clog_lt_self (by norm_num) (by omega)
      have h4 : 0 < Nat.clog 2 m := Nat.clog_pos (by norm_num) (by omega)
      have h5 : (2 : Nat) ^ Nat.clog 2 m = 2 * 2 ^ (Nat.clog 2 m - 1) := by
        conv_lhs => rw [show Nat.clog 2 m = (Nat.clog 2 m - 1) + 1 by omega]
        rw [pow_succ]
        ring
      omega

lemma clog_two_odd_succ (m : Nat) (hm : 3 ≤ m) (hodd : m % 2 = 1) :
    Nat.clog 2 (m + 1) = Nat.clog 2 m := by
  apply le_antisymm
  · rw [← Nat.le_pow_iff_clog_le (by norm_num)]
    have h1 : m ≤ 2 ^ Nat.clog 2 m := Nat.le_pow_clog (by norm_num) m
    have h4 : 0 < Nat.clog 2 m := Nat.clog_pos (by norm_num) (by omega)
    have h5 : (2 : Nat) ^ Nat.clog 2 m % 2 = 0 := by
      rw [show Nat.clog 2 m = (Nat.clog 2 m - 1) + 1 by omega, pow_succ]
      omega
    omega
  · exact Nat.clog_mono_right 2 (by omega)

/-- The height produced by the construction loop on an even-length level of
length at least two is `1 + ceil(log2(length))`. -/
lemma buildLevels_length_clog :
    ∀ n (l : List Hash), l.length = n → l.length % 2 = 0 → 2 ≤ l.length →
      (buildLevels l).length = 1 + Nat.clog 2 l.length := by
  intro n
  induction n using Nat.strong_induction_on with
  | _ n ih =>
    intro l hn heven h2
    have hstep := buildLevels_step l (by omega)
    have hlt := calculate_next_level_length_lt l h2
    have hpos' := calculate_next_level_length_pos l h2
    have hm : l.length = 2 * (l.length / 2) := by omega
    rcases calculate_next_level_parity l h2 with hpar | hone
    · have hnext2 : 2 ≤ (calculate_next_level l).length := by
        rcases Nat.lt_or_ge (calculate_next_level l).length 2 with hh | hh
        · interval_cases h : (calculate_next_level l).length <;> omega
        · exact hh
      have hih := ih (calculate_next_level l).length (by omega)
        (calculate_next_level l) rfl hpar hnext2
      rw [hstep]
      simp only [List.length_cons, hih]
      have hclog : Nat.clog 2 (calculate_next_level l).length + 1 = Nat.clog 2 l.length := by
        obtain ⟨m, hm2⟩ : ∃ m, l.length = 2 * m := ⟨l.length / 2, by omega⟩
        have hdiv : l.length / 2 = m := by omega
        have hm1 : 1 ≤ m := by omega
        rw [calculate_next_level_length, hdiv, hm2]
        split
        · rename_i hsp
          rw [clog_two_odd_succ m (by omega) hsp.2, clog_two_double m hm1]
        · rw [clog_two_double m hm1]
      omega
    · have hl2 : l.length = 2 := by
        rw [calculate_next_level_length] at hone
        by_contra hne
        have : 4 ≤ l.length := by omega
        split at hone <;> omega
      rw [hstep, buildLevels_base _ (by omega), hl2,
        Nat.clog_eq_one (by norm_num) (by norm_num)]
      rfl

lemma iterPosition_eq_none_iff (p : Hash → Bool) :
    ∀ l : List Hash, (iterPosition p l = none ↔ ∀ x ∈ l, ¬ p x)
  | [] => by simp [iterPosition]
  | h :: rest => by
    by_cases hp : p h <;>
      simp [iterPosition, hp, Option.map_eq_none', iterPosition_eq_none_iff p rest]

lemma iterPosition_eq_some (p : Hash → Bool) :
    ∀ (l : List Hash) (i : Nat), iterPosition p l = some i →
      (∃ x, l.get? i = some x ∧ p x = true) ∧
      (∀ j, j < i → ∀ y, l.get? j = some y → p y = false)
  | [], i => by simp [iterPosition]
  | h :: rest, i => by
    by_cases hp : p h
    · simp only [iterPosition, if_pos hp, Option.some.injEq]
      rintro rfl
      exact ⟨⟨h, rfl, hp⟩, fun j hj => by omega⟩
    · simp only [iterPosition, if_neg hp, Option.map_eq_some']
      rintro ⟨i', hi', rfl⟩
      obtain ⟨⟨x, hx, hpx⟩, hfirst⟩ := iterPosition_eq_some p rest i' hi'
      refine ⟨⟨x, by simpa using hx, hpx⟩, ?_⟩
      intro j hj y hy
      cases j with
      | zero =>
        simp only [List.get?_cons_zero, Option.some.injEq] at hy
        subst hy
        simpa using hp
      | succ j' =>
        simp only [List.get?_cons_succ] at hy
        exact hfirst j' (by omega) y hy

lemma iterPosition_of_mem (p : Hash → Bool) (l : List Hash) (h : ∃ x ∈ l, p x) :
    ∃ i, iterPosition p l = some i := by
  cases hip : iterPosition p l with
  | some i => exact ⟨i, rfl⟩
  | none =>
    rw [iterPosition_eq_none_iff] at hip
    obtain ⟨x, hx, hpx⟩ := h
    exact absurd hpx (hip x hx)

lemma proofSiblings_cons (level : List Hash) (rest : List (List Hash)) (index : Nat)
    (s : Hash) (hs : level.get? (if index % 2 = 0 then index + 1 else index - 1) = some s) :
    proofSiblings (level :: rest) index =
      (proofSiblings rest (index / 2)).map (fun proof => s :: proof) := by
  simp only [proofSiblings, hs]

/-- Core correctness of proof generation and recombination: on an even-length
bottom level, the sibling walk of `generate_proof` succeeds at every leaf
position and `verifyLoop` folds the collected siblings back to the single
digest of the top level. -/
lemma verify_core :
    ∀ n (L : List Hash), L.length = n → L.length % 2 = 0 →
      ∀ i x, L.get? i = some x →
        ∃ proof r,
          proofSiblings ((buildLevels L).take ((buildLevels L).length - 1)) i = some proof ∧
          (buildLevels L).getLast? = some [r] ∧
          verifyLoop x i proof = r := by
  intro n
  induction n using Nat.strong_induction_on with
  | _ n ih =>
    intro L hn heven i x hx
    have hi : i < L.length := by
      by_contra hge
      rw [List.get?_eq_none.mpr (by omega)] at hx
      exact Option.noConfusion hx
    have h2 : 2 ≤ L.length := by omega
    have hstep := buildLevels_step L (by omega)
    have hlt := calculate_next_level_length_lt L h2
    have hpos' := calculate_next_level_length_pos L h2
    have hpu : (pairUp L).length = L.length / 2 := pairUp_length L
    have hsib_lt : (if i % 2 = 0 then i + 1 else i - 1) < L.length := by
      by_cases hp : i % 2 = 0 <;> simp [hp] <;> omega
    obtain ⟨s, hs⟩ : ∃ s, L.get? (if i % 2 = 0 then i + 1 else i - 1) = some s := by
      rw [List.get?_eq_get hsib_lt]
      exact ⟨_, rfl⟩
    have hhalf : i / 2 < (pairUp L).length := by omega
    obtain ⟨y, hy, hyval⟩ : ∃ y, (calculate_next_level L).get? (i / 2) = some y ∧
        y = (if i % 2 = 0 then hash_multiple x s else hash_multiple s x) := by
      rw [calculate_next_level_get?_lt L (i / 2) hhalf, pairUp_get?]
      by_cases hp : i % 2 = 0
      · rw [if_pos hp] at hs
        have e1 : 2 * (i / 2) = i := by omega
        rw [e1, hx, hs]
        exact ⟨_, rfl, by rw [if_pos hp]⟩
      · rw [if_neg hp] at hs
        have e1 : 2 * (i / 2) = i - 1 := by omega
        rw [e1, show i - 1 + 1 = i by omega, hs, hx]
        exact ⟨_, rfl, by rw [if_neg hp]⟩
    have hloopstep : ∀ P : List Hash, verifyLoop x i (s :: P) = verifyLoop y (i / 2) P := by
      intro P
      simp only [verifyLoop, hyval]
    rcases calculate_next_level_parity L h2 with hpar | hone
    · obtain ⟨proof', r, hps', hlast', hvl'⟩ := ih (calculate_next_level L).length (by omega)
        (calculate_next_level L) rfl hpar (i / 2) y hy
      refine ⟨s :: proof', r, ?_, ?_, ?_⟩
      · rw [hstep]
        have hLpos : 0 < (buildLevels (calculate_next_level L)).length :=
          List.length_pos.mpr (buildLevels_ne_nil _)
        obtain ⟨b, hb⟩ : ∃ b, (buildLevels (calculate_next_level L)).length = b + 1 :=
          ⟨(buildLevels (calculate_next_level L)).length - 1, by omega⟩
        rw [hb, Nat.add_sub_cancel] at hps'
        simp only [List.length_cons, hb, Nat.add_sub_cancel, List.take_succ_cons]
        rw [proofSiblings_cons L _ i s hs, hps']
        rfl
      · rw [hstep, getLast?_cons_of_ne_nil _ _ (buildLevels_ne_nil _)]
        exact hlast'
      · rw [hloopstep proof']
        exact hvl'
    · obtain ⟨r0, hr0⟩ : ∃ r0, calculate_next_level L = [r0] := by
        cases hcl : calculate_next_level L with
        | nil => rw [hcl] at hone; simp at hone
        | cons u us =>
          rw [hcl] at hone
          simp at hone
          exact ⟨u, by rw [hone]⟩
      have hione : i / 2 = 0 := by
        have h1 := calculate_next_level_length L
        rw [hone] at h1
        have h2' : L.length / 2 = 1 := by split at h1 <;> omega
        omega
      have hyr : y = r0 := by
        rw [hr0, hione] at hy
        simp only [List.get?_cons_zero, Option.some.injEq] at hy
        exact hy.symm
      refine ⟨[s], r0, ?_, ?_, ?_⟩
      · rw [hstep, hr0, buildLevels_base [r0] (by simp)]
        have htake : ((L :: [[r0]]).take ((L :: [[r0]] : List (List Hash)).length - 1)) = [L] := by
          simp
        rw [htake, proofSiblings_cons L [] i s hs]
        rfl
      · rw [hstep, getLast?_cons_of_ne_nil _ _ (buildLevels_ne_nil _), hr0,
          buildLevels_base [r0] (by simp)]
        rfl
      · rw [hloopstep []]
        simpa [verifyLoop] using hyr

lemma getLastD_mem {α : Type} : ∀ (l : List α) (d : α), l ≠ [] → l.getLastD d ∈ l
  | [a], d, _ => by simp
  | a :: b :: t, d, _ => by
    rw [List.getLastD_cons]
    exact List.mem_cons_of_mem a (getLastD_mem (b :: t) a (by simp))

lemma create_initial_level_eq (initial_vals : List Nat) :
    create_initial_level initial_vals =
      if (initial_vals.map (fun i => hash_one i)).length % 2 = 1 then
        initial_vals.map (fun i => hash_one i) ++
          [(initial_vals.map (fun i => hash_one i)).getLastD (hash_one 0)]
      else initial_vals.map (fun i => hash_one i) := rfl

lemma create_initial_level_even (initial_vals : List Nat) :
    (create_initial_level initial_vals).length % 2 = 0 := by
  rw [create_initial_level_eq]
  split
  · rename_i hodd
    simp only [List.length_append, List.length_singleton]
    omega
  · rename_i heven
    omega

lemma create_initial_level_length (initial_vals : List Nat) :
    (create_initial_level initial_vals).length =
      if initial_vals.length % 2 = 1 then initial_vals.length + 1 else initial_vals.length := by
  rw [create_initial_level_eq]
  split <;> rename_i h <;> simp only [List.length_map] at h <;> simp [h]

lemma create_initial_level_atomic (initial_vals : List Nat) :
    ∀ h ∈ create_initial_level initial_vals, ∃ v, h = Hash.one v := by
  rw [create_initial_level_eq]
  intro h hmem
  have hof : ∀ x ∈ initial_vals.map (fun i => hash_one i), ∃ v, x = Hash.one v := by
    intro x hx
    obtain ⟨v, _, hv⟩ := List.mem_map.mp hx
    exact ⟨v, hv.symm⟩
  split at hmem
  · rcases List.mem_append.mp hmem with hmem' | hmem'
    · exact hof h hmem'
    · rename_i hodd
      have hne : initial_vals.map (fun i => hash_one i) ≠ [] := by
        intro habs
        rw [habs] at hodd
        simp at hodd
      simp only [List.mem_singleton] at hmem'
      subst hmem'
      exact hof _ (getLastD_mem _ _ hne)
  · exact hof h hmem

lemma mk_buildLevels_leafs (L : List Hash) : (MerkleTree.mk (buildLevels L)).leafs = L :=
  buildLevels_headD L

lemma mk_buildLevels_num (L : List Hash) :
    (MerkleTree.mk (buildLevels L)).num_elements = L.length := by
  rw [MerkleTree.num_elements, mk_buildLevels_leafs]

lemma add_element_eq (t : MerkleTree) (element : Nat) :
    t.add_element element =
      ⟨buildLevels (if (t.leafs ++ [hash_one element]).length % 2 = 1 then
        (t.leafs ++ [hash_one element]) ++ [hash_one element]
      else t.leafs ++ [hash_one element])⟩ := rfl

lemma add_element_of_even (t : MerkleTree) (element : Nat) (h : t.num_elements % 2 = 0) :
    t.add_element element = ⟨buildLevels (t.leafs ++ [hash_one element, hash_one element])⟩ := by
  rw [add_element_eq]
  have hodd : (t.leafs ++ [hash_one element]).length % 2 = 1 := by
    simp only [List.length_append, List.length_singleton]
    have : t.leafs.length = t.num_elements := rfl
    omega
  rw [if_pos hodd, List.append_assoc]
  rfl

/-- Every tree reachable through the public API is the result of the
construction loop on an even-length bottom level all of whose digests are
leaf digests (`Hash.one`). -/
lemma reachable_shape (t : MerkleTree) (ht : Reachable t) :
    ∃ L : List Hash, L.length % 2 = 0 ∧ t = ⟨buildLevels L⟩ ∧
      (∀ h ∈ L, ∃ v, h = Hash.one v) := by
  induction ht with
  | create vals =>
    exact ⟨create_initial_level vals, create_initial_level_even vals, rfl,
      create_initial_level_atomic vals⟩
  | add t element ht ihp =>
    obtain ⟨L, hev, hteq, hatom⟩ := ihp
    refine ⟨L ++ [hash_one element, hash_one element], by simp [List.length_append]; omega, ?_, ?_⟩
    · rw [hteq, add_element_of_even _ element (by rw [mk_buildLevels_num]; exact hev),
        mk_buildLevels_leafs]
    · intro h hmem
      rcases List.mem_append.mp hmem with hmem' | hmem'
      · exact hatom h hmem'
      · simp only [List.mem_cons, List.not_mem_nil, or_false] at hmem'
        rcases hmem' with rfl | rfl
        · exact ⟨element, rfl⟩
        · exact ⟨element, rfl⟩

lemma reachable_num_even (t : MerkleTree) (ht : Reachable t) : t.num_elements % 2 = 0 := by
  obtain ⟨L, hev, rfl, -⟩ := reachable_shape t ht
  rw [mk_buildLevels_num]
  exact hev

instance exceptDecEq {e a : Type} [DecidableEq e] [DecidableEq a] :
    DecidableEq (Except e a) := fun x y =>
  match x, y with
  | .ok u, .ok w =>
    if h : u = w then isTrue (by rw [h]) else
      isFalse (fun hc => h (by injection hc))
  | .error u, .error w =>
    if h : u = w then isTrue (by rw [h]) else
      isFalse (fun hc => h (by injection hc))
  | .ok _, .error _ => isFalse (fun hc => Except.noConfusion hc)
  | .error _, .ok _ => isFalse (fun hc => Except.noConfusion hc)

lemma root_of_getLast_singleton (t : MerkleTree) (r : Hash)
    (h : t.levels.getLast? = some [r]) : t.root = .ok (some r) := by
  simp only [MerkleTree.root, h]
  rfl

/-- C1: on every tree built by `create_from_values` (and after any sequence of
`add_element` calls), for every value whose digest occurs in the leaf level,
`generate_proof` returns a proof together with the leaf index, and
`verify_proof` recombines that proof (left/right chosen by index parity at
each level) to the tree's current root, returning `true`. -/
theorem C1_generate_then_verify (t : MerkleTree) (ht : Reachable t) (v : Nat)
    (hv : hash_one v ∈ t.leafs) :
    ∃ proof index, t.generate_proof v = .ok (some (proof, index)) ∧
      t.verify_proof v index proof = .ok true := by
  obtain ⟨L, hev, rfl, -⟩ := reachable_shape t ht
  rw [mk_buildLevels_leafs] at hv
  obtain ⟨i, hipos⟩ := iterPosition_of_mem (fun h => h = hash_one v) L
    ⟨hash_one v, hv, by simp⟩
  obtain ⟨⟨x, hx, hpx⟩, -⟩ := iterPosition_eq_some _ L i hipos
  have hxv : x = hash_one v := by simpa using hpx
  subst hxv
  obtain ⟨proof, r, hps, hlast, hvl⟩ := verify_core L.length L rfl hev i (hash_one v) hx
  have hidx : (MerkleTree.mk (buildLevels L)).leaf_index_for_element v = some i := by
    unfold MerkleTree.leaf_index_for_element
    rw [mk_buildLevels_leafs]
    exact hipos
  refine ⟨proof, i, ?_, ?_⟩
  · simp only [MerkleTree.generate_proof, hidx]
    have hht : (MerkleTree.mk (buildLevels L)).height = (buildLevels L).length := rfl
    rw [hht, hps]
  · have hroot : (MerkleTree.mk (buildLevels L)).root = .ok (some r) :=
      root_of_getLast_singleton _ r hlast
    simp only [MerkleTree.verify_proof, hroot, hvl]
    simp

/-- Witness for C1 at the tree built from `[3, 4, 5, 6]` and the value `5`. -/
theorem C1_generate_then_verify_witness :
    Reachable (MerkleTree.create_from_values [3, 4, 5, 6]) ∧
    hash_one 5 ∈ (MerkleTree.create_from_values [3, 4, 5, 6]).leafs ∧
    ∃ proof index,
      (MerkleTree.create_from_values [3, 4, 5, 6]).generate_proof 5 =
        .ok (some (proof, index)) ∧
      (MerkleTree.create_from_values [3, 4, 5, 6]).verify_proof 5 index proof = .ok true :=
  ⟨Reachable.create [3, 4, 5, 6], by decide,
    C1_generate_then_verify _ (Reachable.create [3, 4, 5, 6]) 5 (by decide)⟩

/-- C9: `create_from_values` on the empty input yields a tree whose only
level is the empty level, on which `root()` panics (indexing position 0 of an
empty level) instead of returning `None`; a tree with zero levels does give
`None`. -/
theorem C9_empty_tree_root :
    (MerkleTree.create_from_values []).levels = [[]] ∧
    (MerkleTree.create_from_values []).root = Except.error () ∧
    (MerkleTree.mk []).root = Except.ok none :=
  ⟨rfl, rfl, rfl⟩

/-- C5 counterexample: on the single-value input `[7]` the code duplicates the
lone leaf (the odd-length padding also applies to length 1), so the tree has
height 2 and leaf count 2, not height 1 and leaf count 1, and the proof for
`7` is `[hash_one 7]`, not the empty proof at index 0. -/
theorem C5_counterexample :
    (MerkleTree.create_from_values [7]).height ≠ 1 ∧
    (MerkleTree.create_from_values [7]).num_elements ≠ 1 ∧
    (MerkleTree.create_from_values [7]).generate_proof 7 ≠ Except.ok (some ([], 0)) := by
  refine ⟨by decide, by decide, by decide⟩

/-- C5 amended: for a single-value input the code pads the leaf level to two
copies of the digest, producing a tree of height 2 with leaf count 2 whose
root is `combine(h, h)`; `generate_proof` yields the one-element proof
`[h]` at index 0, which verifies. -/
theorem C5_amended_single_value (v : Nat) :
    (MerkleTree.create_from_values [v]).height = 2 ∧
    (MerkleTree.create_from_values [v]).leafs = [hash_one v, hash_one v] ∧
    (MerkleTree.create_from_values [v]).root =
      .ok (some (hash_multiple (hash_one v) (hash_one v))) ∧
    (MerkleTree.create_from_values [v]).generate_proof v = .ok (some ([hash_one v], 0)) ∧
    (MerkleTree.create_from_values [v]).verify_proof v 0 [hash_one v] = .ok true := by
  have htree : MerkleTree.create_from_values [v] =
      ⟨[[hash_one v, hash_one v], [hash_multiple (hash_one v) (hash_one v)]]⟩ := rfl
  have hleaf : (MerkleTree.mk [[hash_one v, hash_one v],
      [hash_multiple (hash_one v) (hash_one v)]]).leaf_index_for_element v = some 0 := by
    simp [MerkleTree.leaf_index_for_element, MerkleTree.leafs, iterPosition]
  refine ⟨rfl, rfl, rfl, ?_, ?_⟩
  · rw [htree]
    simp only [MerkleTree.generate_proof, hleaf]
    rfl
  · have hroot : (MerkleTree.create_from_values [v]).root =
        .ok (some (hash_multiple (hash_one v) (hash_one v))) := rfl
    simp only [MerkleTree.verify_proof, hroot, verifyLoop]
    simp [verifyLoop, hash_multiple]

lemma get?_pred_eq_getLastD {α : Type} (l : List α) (d : α) (h : l ≠ []) :
    l.get? (l.length - 1) = some (l.getLastD d) := by
  rw [← List.getLast?_eq_get?]
  cases hl : l.getLast? with
  | none => exact absurd (List.getLast?_eq_none_iff.mp hl) h
  | some y => simp [List.getLastD_eq_getLast?, hl]

/-- C7: on an odd-length input the leaf level is the digests of the inputs in
order followed by one duplicate of the final digest — its length is the input
length plus one, the last entry repeats the second-to-last, and nothing else
is padded into the leaf level. -/
theorem C7_odd_input_padding (initial_vals : List Nat) (hodd : initial_vals.length % 2 = 1) :
    (MerkleTree.create_from_values initial_vals).leafs =
      initial_vals.map (fun i => hash_one i) ++
        [(initial_vals.map (fun i => hash_one i)).getLastD (hash_one 0)] ∧
    (MerkleTree.create_from_values initial_vals).num_elements = initial_vals.length + 1 ∧
    (MerkleTree.create_from_values initial_vals).leafs.get? initial_vals.length =
      (MerkleTree.create_from_values initial_vals).leafs.get? (initial_vals.length - 1) := by
  have hmap : (initial_vals.map (fun i => hash_one i)).length = initial_vals.length :=
    List.length_map _ _
  have hlf : (MerkleTree.create_from_values initial_vals).leafs =
      initial_vals.map (fun i => hash_one i) ++
        [(initial_vals.map (fun i => hash_one i)).getLastD (hash_one 0)] := by
    rw [MerkleTree.create_from_values, mk_buildLevels_leafs, create_initial_level_eq,
      if_pos (by rw [hmap]; exact hodd)]
  have hne : initial_vals.map (fun i => hash_one i) ≠ [] := by
    intro habs
    rw [habs] at hmap
    simp only [List.length_nil] at hmap
    omega
  refine ⟨hlf, ?_, ?_⟩
  · rw [MerkleTree.num_elements, hlf]
    simp [hmap]
  · have hpos : 0 < (initial_vals.map (fun i => hash_one i)).length :=
      List.length_pos.mpr hne
    rw [hlf, ← hmap]
    rw [List.get?_append_right le_rfl, Nat.sub_self]
    rw [List.get?_append (by omega)]
    rw [get?_pred_eq_getLastD _ (hash_one 0) hne]
    rfl

/-- Witness for C7 at the input `[3, 4, 5]`. -/
theorem C7_odd_input_padding_witness :
    ([3, 4, 5] : List Nat).length % 2 = 1 ∧
    ((MerkleTree.create_from_values [3, 4, 5]).leafs =
      [3, 4, 5].map (fun i => hash_one i) ++
        [([3, 4, 5].map (fun i => hash_one i)).getLastD (hash_one 0)] ∧
    (MerkleTree.create_from_values [3, 4, 5]).num_elements = [3, 4, 5].length + 1 ∧
    (MerkleTree.create_from_values [3, 4, 5]).leafs.get? [3, 4, 5].length =
      (MerkleTree.create_from_values [3, 4, 5]).leafs.get? ([3, 4, 5].length - 1)) :=
  ⟨by decide, C7_odd_input_padding [3, 4, 5] (by decide)⟩

/-- C8: `leaf_index_for_element` returns `none` exactly when no leaf digest
matches, returns the first (lowest) matching position otherwise, and
`generate_proof` returns `none` exactly when `leaf_index_for_element` does. -/
theorem C8_first_match_semantics (t : MerkleTree) (v : Nat) :
    (t.leaf_index_for_element v = none ↔ hash_one v ∉ t.leafs) ∧
    (∀ i, t.leaf_index_for_element v = some i →
      t.leafs.get? i = some (hash_one v) ∧
      ∀ j, j < i → t.leafs.get? j ≠ some (hash_one v)) ∧
    (t.generate_proof v = .ok none ↔ t.leaf_index_for_element v = none) := by
  refine ⟨?_, ?_, ?_⟩
  · unfold MerkleTree.leaf_index_for_element
    rw [iterPosition_eq_none_iff]
    constructor
    · intro h hmem
      have := h _ hmem
      simp at this
    · intro h x hx
      simp only [decide_eq_true_eq]
      intro heq
      rw [heq] at hx
      exact h hx
  · intro i hi
    unfold MerkleTree.leaf_index_for_element at hi
    obtain ⟨⟨x, hx, hpx⟩, hfirst⟩ := iterPosition_eq_some _ _ i hi
    have hxv : x = hash_one v := by simpa using hpx
    subst hxv
    refine ⟨hx, ?_⟩
    intro j hj hc
    have := hfirst j hj _ hc
    simp at this
  · cases hidx : t.leaf_index_for_element v with
    | none => simp [MerkleTree.generate_proof, hidx]
    | some i =>
      simp only [MerkleTree.generate_proof, hidx]
      cases hps : proofSiblings (t.levels.take (t.height - 1)) i with
      | some proof => simp
      | none => simp

/-- Witness for C8 at the tree built from `[3, 4, 5, 6]` and the value `5`. -/
theorem C8_first_match_semantics_witness :
    ((MerkleTree.create_from_values [3, 4, 5, 6]).leaf_index_for_element 5 = none ↔
      hash_one 5 ∉ (MerkleTree.create_from_values [3, 4, 5, 6]).leafs) ∧
    (∀ i, (MerkleTree.create_from_values [3, 4, 5, 6]).leaf_index_for_element 5 = some i →
      (MerkleTree.create_from_values [3, 4, 5, 6]).leafs.get? i = some (hash_one 5) ∧
      ∀ j, j < i →
        (MerkleTree.create_from_values [3, 4, 5, 6]).leafs.get? j ≠ some (hash_one 5)) ∧
    ((MerkleTree.create_from_values [3, 4, 5, 6]).generate_proof 5 = .ok none ↔
      (MerkleTree.create_from_values [3, 4, 5, 6]).leaf_index_for_element 5 = none) :=
  C8_first_match_semantics (MerkleTree.create_from_values [3, 4, 5, 6]) 5

/-- C6: for every nonempty input sequence the height of the built tree is
`1 + ceil(log2(paddedLeafCount))`, where `paddedLeafCount` is the length of
the leaf level after odd-length padding. -/
theorem C6_height_formula (initial_vals : List Nat) (hne : initial_vals ≠ []) :
    (MerkleTree.create_from_values initial_vals).height =
      1 + Nat.clog 2 (create_initial_level initial_vals).length := by
  have hev := create_initial_level_even initial_vals
  have hpos : 1 ≤ (create_initial_level initial_vals).length := by
    rw [create_initial_level_length]
    have hnz : initial_vals.length ≠ 0 := fun h => hne (List.length_eq_zero.mp h)
    split <;> omega
  exact buildLevels_length_clog _ _ rfl hev (by omega)

/-- Witness for C6 at the input `[3, 4, 5]`. -/
theorem C6_height_formula_witness :
    ([3, 4, 5] : List Nat) ≠ [] ∧
    (MerkleTree.create_from_values [3, 4, 5]).height =
      1 + Nat.clog 2 (create_initial_level [3, 4, 5]).length :=
  ⟨by decide, C6_height_formula [3, 4, 5] (by decide)⟩

/-- C4 counterexample: the tree built from `[1, 2, 3, 4, 5, 6]` stores level
lengths `[6, 4, 2, 1]`, so `len(levels[1]) = 4` while
`ceil(len(levels[0]) / 2) = ceil(6 / 2) = 3`: the claimed invariant
`len(levels[k+1]) == ceil(len(levels[k]) / 2)` fails because odd intermediate
levels are padded with a duplicate. -/
theorem C4_counterexample :
    (MerkleTree.create_from_values [1, 2, 3, 4, 5, 6]).levels.map List.length =
      [6, 4, 2, 1] ∧
    ¬ ((4 : Nat) = (6 + 1) / 2) := by
  refine ⟨by decide, by decide⟩

/-- C4 amended: for every tree built by the public API from at least one
value, the leaf level is nonempty and for every level of length above one the
next level has length `pad(ceil(len / 2))`, where `pad(m) = m + 1` when `m`
is odd and greater than one (the intermediate duplicate-padding) and
`pad(m) = m` otherwise; the level sequence ends at the first level of length
one, which is the root level. -/
theorem C4_amended_level_lengths (t : MerkleTree) (ht : Reachable t)
    (hne : 1 ≤ t.num_elements) :
    1 ≤ (t.levels.headD []).length ∧
    (∀ k lk lk1, t.levels.get? k = some lk → t.levels.get? (k + 1) = some lk1 →
      1 < lk.length →
      lk1.length = (if 1 < (lk.length + 1) / 2 ∧ ((lk.length + 1) / 2) % 2 = 1 then
        (lk.length + 1) / 2 + 1 else (lk.length + 1) / 2)) ∧
    (∃ r, t.levels.getLast? = some [r]) ∧
    (∀ k lk, t.levels.get? k = some lk → k + 1 < t.levels.length → 1 < lk.length) := by
  obtain ⟨L, hev, rfl, -⟩ := reachable_shape t ht
  rw [mk_buildLevels_num] at hne
  have hlv : (MerkleTree.mk (buildLevels L)).levels = buildLevels L := rfl
  rw [hlv]
  refine ⟨?_, ?_, ?_, ?_⟩
  · rw [buildLevels_headD]
    exact hne
  · intro k lk lk1 hk hk1 hlk
    have hk1lt : k + 1 < (buildLevels L).length := by
      by_contra hge
      rw [List.get?_eq_none.mpr (by omega)] at hk1
      exact Option.noConfusion hk1
    obtain ⟨-, hlkev, hnext⟩ := (buildLevels_chain L.length L rfl hev k lk hk).1 hk1lt
    rw [hnext] at hk1
    injection hk1 with hk1
    subst hk1
    rw [calculate_next_level_length]
    have hceil : (lk.length + 1) / 2 = lk.length / 2 := by omega
    rw [hceil]
  · exact buildLevels_getLast_singleton L.length L rfl hev hne
  · intro k lk hk hklt
    exact ((buildLevels_chain L.length L rfl hev k lk hk).1 hklt).1

/-- Witness for C4's amended invariant at the tree built from
`[1, 2, 3, 4, 5, 6]`. -/
theorem C4_amended_level_lengths_witness :
    Reachable (MerkleTree.create_from_values [1, 2, 3, 4, 5, 6]) ∧
    1 ≤ (MerkleTree.create_from_values [1, 2, 3, 4, 5, 6]).num_elements ∧
    (1 ≤ ((MerkleTree.create_from_values [1, 2, 3, 4, 5, 6]).levels.headD []).length ∧
    (∀ k lk lk1, (MerkleTree.create_from_values [1, 2, 3, 4, 5, 6]).levels.get? k = some lk →
      (MerkleTree.create_from_values [1, 2, 3, 4, 5, 6]).levels.get? (k + 1) = some lk1 →
      1 < lk.length →
      lk1.length = (if 1 < (lk.length + 1) / 2 ∧ ((lk.length + 1) / 2) % 2 = 1 then
        (lk.length + 1) / 2 + 1 else (lk.length + 1) / 2)) ∧
    (∃ r, (MerkleTree.create_from_values [1, 2, 3, 4, 5, 6]).levels.getLast? = some [r]) ∧
    (∀ k lk, (MerkleTree.create_from_values [1, 2, 3, 4, 5, 6]).levels.get? k = some lk →
      k + 1 < (MerkleTree.create_from_values [1, 2, 3, 4, 5, 6]).levels.length →
      1 < lk.length)) :=
  ⟨Reachable.create [1, 2, 3, 4, 5, 6], by decide,
    C4_amended_level_lengths _ (Reachable.create [1, 2, 3, 4, 5, 6]) (by decide)⟩

/-- C10: every tree built from at least one value (and preserved by
`add_element`) has a final level of length exactly one and even-length levels
everywhere else, so the sibling access in `generate_proof` is always in
bounds: `generate_proof` never panics. -/
theorem C10_levels_invariant (t : MerkleTree) (ht : Reachable t)
    (hne : 1 ≤ t.num_elements) :
    (∃ r, t.levels.getLast? = some [r]) ∧
    (∀ k lk, t.levels.get? k = some lk → k + 1 < t.levels.length → lk.length % 2 = 0) ∧
    (∀ v, t.generate_proof v ≠ .error ()) := by
  obtain ⟨L, hev, rfl, -⟩ := reachable_shape t ht
  rw [mk_buildLevels_num] at hne
  have hlv : (MerkleTree.mk (buildLevels L)).levels = buildLevels L := rfl
  refine ⟨?_, ?_, ?_⟩
  · rw [hlv]
    exact buildLevels_getLast_singleton L.length L rfl hev hne
  · rw [hlv]
    intro k lk hk hklt
    exact ((buildLevels_chain L.length L rfl hev k lk hk).1 hklt).2.1
  · intro v
    cases hidx : (MerkleTree.mk (buildLevels L)).leaf_index_for_element v with
    | none => simp [MerkleTree.generate_proof, hidx]
    | some i =>
      have hidx' : iterPosition (fun h => h = hash_one v) L = some i := by
        unfold MerkleTree.leaf_index_for_element at hidx
        rwa [mk_buildLevels_leafs] at hidx
      obtain ⟨⟨x, hx, -⟩, -⟩ := iterPosition_eq_some _ _ i hidx'
      obtain ⟨proof, r, hps, -, -⟩ := verify_core L.length L rfl hev i x hx
      simp only [MerkleTree.generate_proof, hidx]
      have hht : (MerkleTree.mk (buildLevels L)).height = (buildLevels L).length := rfl
      rw [hht, hps]
      simp

/-- Witness for C10 at the tree built from `[1, 2, 3, 4]` after appending 5. -/
theorem C10_levels_invariant_witness :
    Reachable ((MerkleTree.create_from_values [1, 2, 3, 4]).add_element 5) ∧
    1 ≤ ((MerkleTree.create_from_values [1, 2, 3, 4]).add_element 5).num_elements ∧
    ((∃ r, ((MerkleTree.create_from_values [1, 2, 3, 4]).add_element 5).levels.getLast? =
      some [r]) ∧
    (∀ k lk, ((MerkleTree.create_from_values [1, 2, 3, 4]).add_element 5).levels.get? k =
        some lk →
      k + 1 < ((MerkleTree.create_from_values [1, 2, 3, 4]).add_element 5).levels.length →
      lk.length % 2 = 0) ∧
    (∀ v, ((MerkleTree.create_from_values [1, 2, 3, 4]).add_element 5).generate_proof v ≠
      .error ())) :=
  ⟨Reachable.add _ 5 (Reachable.create [1, 2, 3, 4]), by decide,
    C10_levels_invariant _ (Reachable.add _ 5 (Reachable.create [1, 2, 3, 4])) (by decide)⟩

/-- Number of leaf digests a digest term commits to: every entry of level `k`
of a tree with atomic leaves has size `2^k`, which separates roots of trees
of different heights. -/
def Hash.size : Hash → Nat
  | .one _ => 1
  | .pair l r => l.size + r.size

lemma pairUp_mem :
    ∀ (l : List Hash) (y : Hash), y ∈ pairUp l →
      ∃ a b, a ∈ l ∧ b ∈ l ∧ y = hash_multiple a b
  | [], y, h => by simp [pairUp] at h
  | [_], y, h => by simp [pairUp] at h
  | a :: b :: rest, y, h => by
    simp only [pairUp, List.mem_cons] at h
    rcases h with rfl | h
    · exact ⟨a, b, by simp, by simp, rfl⟩
    · obtain ⟨x, z, hx, hz, rfl⟩ := pairUp_mem rest y h
      exact ⟨x, z, by simp [hx], by simp [hz], rfl⟩

lemma calculate_next_level_mem (l : List Hash) (y : Hash)
    (h : y ∈ calculate_next_level l) :
    ∃ a b, a ∈ l ∧ b ∈ l ∧ y = hash_multiple a b := by
  have heq : calculate_next_level l =
      (if 1 < (pairUp l).length ∧ (pairUp l).length % 2 = 1 then
        pairUp l ++ [(pairUp l).getLastD (hash_one 0)]
      else pairUp l) := rfl
  rw [heq] at h
  split at h
  · rename_i hc
    rcases List.mem_append.mp h with h' | h'
    · exact pairUp_mem l y h'
    · simp only [List.mem_singleton] at h'
      subst h'
      have hne : pairUp l ≠ [] := by
        intro habs
        rw [habs] at hc
        simp at hc
      exact pairUp_mem l _ (getLastD_mem _ _ hne)
  · exact pairUp_mem l y h

lemma calculate_next_level_size (l : List Hash) (s : Nat)
    (hs : ∀ x ∈ l, Hash.size x = s) :
    ∀ y ∈ calculate_next_level l, Hash.size y = 2 * s := by
  intro y hy
  obtain ⟨a, b, ha, hb, rfl⟩ := calculate_next_level_mem l y hy
  simp only [hash_multiple, Hash.size, hs a ha, hs b hb]
  omega

/-- The single digest in the top level of the construction on an even-length
bottom level of uniformly sized digests has size `2^(height-1) * s`. -/
lemma buildLevels_root_size :
    ∀ n (l : List Hash), l.length = n → l.length % 2 = 0 → 1 ≤ l.length →
      ∀ s r, (∀ x ∈ l, Hash.size x = s) →
        (buildLevels l).getLast? = some [r] →
        Hash.size r = 2 ^ ((buildLevels l).length - 1) * s := by
  intro n
  induction n using Nat.strong_induction_on with
  | _ n ih =>
    intro l hn heven hpos s r hs hr
    have h2 : 2 ≤ l.length := by omega
    have hstep := buildLevels_step l (by omega)
    have hlt := calculate_next_level_length_lt l h2
    have hpos' := calculate_next_level_length_pos l h2
    have hsnext := calculate_next_level_size l s hs
    rw [hstep, getLast?_cons_of_ne_nil _ _ (buildLevels_ne_nil _)] at hr
    rcases calculate_next_level_parity l h2 with hpar | hone
    · have hsr := ih (calculate_next_level l).length (by omega)
        (calculate_next_level l) rfl hpar (by omega) (2 * s) r hsnext hr
      have hBp : 1 ≤ (buildLevels (calculate_next_level l)).length :=
        List.length_pos.mpr (buildLevels_ne_nil _)
      have h2B : (2 : Nat) ^ (buildLevels (calculate_next_level l)).length =
          2 ^ ((buildLevels (calculate_next_level l)).length - 1) * 2 := by
        conv_lhs => rw [show (buildLevels (calculate_next_level l)).length =
          ((buildLevels (calculate_next_level l)).length - 1) + 1 by omega]
        rw [pow_succ]
      rw [hstep]
      simp only [List.length_cons, Nat.add_sub_cancel]
      rw [hsr, h2B]
      ring
    · obtain ⟨r0, hr0⟩ : ∃ r0, calculate_next_level l = [r0] := by
        cases hcl : calculate_next_level l with
        | nil => rw [hcl] at hone; simp at hone
        | cons u us =>
          rw [hcl] at hone
          simp at hone
          exact ⟨u, by rw [hone]⟩
      rw [hr0, buildLevels_base [r0] (by simp)] at hr
      simp only [List.getLast?_singleton, Option.some.injEq, List.cons.injEq,
        and_true] at hr
      have hsz : Hash.size r = 2 * s := hr ▸ hsnext r0 (by rw [hr0]; simp)
      rw [hstep, hr0, buildLevels_base [r0] (by simp)]
      simpa using hsz

/-- C2 counterexample: from the 4-leaf tree over `[1, 2, 3, 4]` (leaf count a
power of two), `add_element(5)` yields 6 leaves — it appends 2 digests (the
new digest plus one duplicate), not `n = 4` copies, so the leaf count does not
double to 8. -/
theorem C2_counterexample :
    (MerkleTree.create_from_values [1, 2, 3, 4]).num_elements = 4 ∧
    ((MerkleTree.create_from_values [1, 2, 3, 4]).add_element 5).num_elements = 6 ∧
    ((MerkleTree.create_from_values [1, 2, 3, 4]).add_element 5).num_elements ≠ 8 := by
  refine ⟨by decide, by decide, by decide⟩

lemma two_le_two_pow (k : Nat) (hk : 1 ≤ k) : 2 ≤ 2 ^ k := by
  calc (2 : Nat) = 2 ^ 1 := (pow_one 2).symm
  _ ≤ 2 ^ k := Nat.pow_le_pow_right (by norm_num) hk

lemma clog_two_pow_add_two (k : Nat) (hk : 1 ≤ k) :
    Nat.clog 2 (2 ^ k + 2) = k + 1 := by
  have h2k := two_le_two_pow k hk
  apply le_antisymm
  · rw [← Nat.le_pow_iff_clog_le (by norm_num), pow_succ]
    omega
  · by_contra hc
    push_neg at hc
    have hle : Nat.clog 2 (2 ^ k + 2) ≤ k := by omega
    have := (Nat.le_pow_iff_clog_le (by norm_num)).mpr hle
    omega

/-- C2 amended: on every API-built tree whose leaf count `n` is a power of
two, `add_element(value)` appends exactly two copies of `digestScalar(value)`
(one pushed, one duplicated because `n + 1` is odd), so the leaf count becomes
`n + 2` — e.g. from 4 leaves it becomes 6, not 8; all levels are rebuilt, the
height still increases by exactly one, and the new root differs from the
pre-append root. -/
theorem C2_amended_append_behavior (t : MerkleTree) (v : Nat) (ht : Reachable t)
    (k : Nat) (hn : t.num_elements = 2 ^ k) :
    (t.add_element v).num_elements = t.num_elements + 2 ∧
    (t.add_element v).leafs = t.leafs ++ [hash_one v, hash_one v] ∧
    (t.add_element v).height = t.height + 1 ∧
    ∃ r r', t.root = .ok (some r) ∧ (t.add_element v).root = .ok (some r') ∧ r ≠ r' := by
  have heven := reachable_num_even t ht
  have hk1 : 1 ≤ k := by
    rcases Nat.eq_zero_or_pos k with rfl | h
    · rw [pow_zero] at hn
      omega
    · exact h
  have h2k := two_le_two_pow k hk1
  obtain ⟨L, hev, rfl, hatom⟩ := reachable_shape t ht
  have hnum : (MerkleTree.mk (buildLevels L)).num_elements = L.length := mk_buildLevels_num L
  have hLlen : L.length = 2 ^ k := by rw [← hnum]; exact hn
  have hadd : (MerkleTree.mk (buildLevels L)).add_element v =
      MerkleTree.mk (buildLevels (L ++ [hash_one v, hash_one v])) := by
    rw [add_element_of_even _ v (by rw [hnum]; exact hev), mk_buildLevels_leafs]
  have hL2 : (L ++ [hash_one v, hash_one v]).length = L.length + 2 := by simp
  have hev2 : (L ++ [hash_one v, hash_one v]).length % 2 = 0 := by rw [hL2]; omega
  have hatom2 : ∀ h ∈ L ++ [hash_one v, hash_one v], ∃ w, h = Hash.one w := by
    intro h hmem
    rcases List.mem_append.mp hmem with hmem' | hmem'
    · exact hatom h hmem'
    · simp only [List.mem_cons, List.not_mem_nil, or_false] at hmem'
      rcases hmem' with rfl | rfl
      · exact ⟨v, rfl⟩
      · exact ⟨v, rfl⟩
  have hsz1 : ∀ x ∈ L, Hash.size x = 1 := by
    intro x hx
    obtain ⟨w, rfl⟩ := hatom x hx
    rfl
  have hsz2 : ∀ x ∈ L ++ [hash_one v, hash_one v], Hash.size x = 1 := by
    intro x hx
    obtain ⟨w, rfl⟩ := hatom2 x hx
    rfl
  have hold : (buildLevels L).length = 1 + k := by
    have := buildLevels_length_clog L.length L rfl hev (by omega)
    rw [hLlen, Nat.clog_pow 2 k (by norm_num)] at this
    exact this
  have hnew : (buildLevels (L ++ [hash_one v, hash_one v])).length = 1 + (k + 1) := by
    have := buildLevels_length_clog (L ++ [hash_one v, hash_one v]).length
      (L ++ [hash_one v, hash_one v]) rfl hev2 (by omega)
    rw [hL2, hLlen, clog_two_pow_add_two k hk1] at this
    exact this
  refine ⟨?_, ?_, ?_, ?_⟩
  · rw [hadd, mk_buildLevels_num, hL2, hnum]
  · rw [hadd, mk_buildLevels_leafs, mk_buildLevels_leafs]
  · rw [hadd]
    have hh1 : (MerkleTree.mk (buildLevels (L ++ [hash_one v, hash_one v]))).height =
        (buildLevels (L ++ [hash_one v, hash_one v])).length := rfl
    have hh2 : (MerkleTree.mk (buildLevels L)).height = (buildLevels L).length := rfl
    rw [hh1, hh2, hold, hnew]
    omega
  · obtain ⟨r, hr⟩ := buildLevels_getLast_singleton L.length L rfl hev (by omega)
    obtain ⟨r', hr'⟩ := buildLevels_getLast_singleton (L ++ [hash_one v, hash_one v]).length
      (L ++ [hash_one v, hash_one v]) rfl hev2 (by rw [hL2]; omega)
    have hszr : Hash.size r = 2 ^ ((buildLevels L).length - 1) * 1 :=
      buildLevels_root_size L.length L rfl hev (by omega) 1 r hsz1 hr
    have hszr' : Hash.size r' =
        2 ^ ((buildLevels (L ++ [hash_one v, hash_one v])).length - 1) * 1 :=
      buildLevels_root_size (L ++ [hash_one v, hash_one v]).length
        (L ++ [hash_one v, hash_one v]) rfl hev2 (by rw [hL2]; omega) 1 r' hsz2 hr'
    rw [hold] at hszr
    rw [hnew] at hszr'
    simp only [Nat.add_sub_cancel_left, mul_one] at hszr hszr'
    refine ⟨r, r', root_of_getLast_singleton _ r hr, ?_, ?_⟩
    · rw [hadd]
      exact root_of_getLast_singleton _ r' hr'
    · intro habs
      rw [habs, hszr'] at hszr
      have hps : (2 : Nat) ^ (k + 1) = 2 ^ k * 2 := pow_succ 2 k
      omega

/-- Witness for C2's amended behavior at the tree built from `[1, 2, 3, 4]`
(leaf count `4 = 2^2`) appending the value 5. -/
theorem C2_amended_append_behavior_witness :
    Reachable (MerkleTree.create_from_values [1, 2, 3, 4]) ∧
    (MerkleTree.create_from_values [1, 2, 3, 4]).num_elements = 2 ^ 2 ∧
    (((MerkleTree.create_from_values [1, 2, 3, 4]).add_element 5).num_elements =
      (MerkleTree.create_from_values [1, 2, 3, 4]).num_elements + 2 ∧
    ((MerkleTree.create_from_values [1, 2, 3, 4]).add_element 5).leafs =
      (MerkleTree.create_from_values [1, 2, 3, 4]).leafs ++ [hash_one 5, hash_one 5] ∧
    ((MerkleTree.create_from_values [1, 2, 3, 4]).add_element 5).height =
      (MerkleTree.create_from_values [1, 2, 3, 4]).height + 1 ∧
    ∃ r r', (MerkleTree.create_from_values [1, 2, 3, 4]).root = .ok (some r) ∧
      ((MerkleTree.create_from_values [1, 2, 3, 4]).add_element 5).root = .ok (some r') ∧
      r ≠ r') :=
  ⟨Reachable.create [1, 2, 3, 4], by decide,
    C2_amended_append_behavior _ 5 (Reachable.create [1, 2, 3, 4]) 2 (by decide)⟩

lemma six_not_two_pow : ¬ ∃ k : Nat, (6 : Nat) = 2 ^ k := by
  rintro ⟨k, hk⟩
  rcases Nat.lt_or_ge k 3 with h | h
  · interval_cases k <;> simp at hk
  · have h8 : (8 : Nat) ≤ 2 ^ k := by
      calc (8 : Nat) = 2 ^ 3 := by norm_num
      _ ≤ 2 ^ k := Nat.pow_le_pow_right (by norm_num) h
    omega

/-- C3 counterexample: the tree over `[1, 2, 3, 4, 5, 6]` has 6 leaves — not
a power of two — yet `add_element(7)` silently mutates it to 8 leaves (and new
levels) instead of failing: there is no precondition check or failure path in
`add_element`. -/
theorem C3_counterexample :
    (MerkleTree.create_from_values [1, 2, 3, 4, 5, 6]).num_elements = 6 ∧
    (¬ ∃ k : Nat, (MerkleTree.create_from_values [1, 2, 3, 4, 5, 6]).num_elements = 2 ^ k) ∧
    ((MerkleTree.create_from_values [1, 2, 3, 4, 5, 6]).add_element 7).num_elements = 8 ∧
    ((MerkleTree.create_from_values [1, 2, 3, 4, 5, 6]).add_element 7).levels ≠
      (MerkleTree.create_from_values [1, 2, 3, 4, 5, 6]).levels := by
  refine ⟨by decide, ?_, by decide, by decide⟩
  intro ⟨k, hk⟩
  exact six_not_two_pow ⟨k, hk⟩

/-- C3 amended: `add_element` checks no precondition and has no failure path:
on any API-built tree — in particular one whose leaf count is not a power of
two — it totally succeeds, appending the new digest plus one duplicate (the
even leaf count makes the pushed count odd) and rebuilding every level. -/
theorem C3_amended_no_precondition (t : MerkleTree) (v : Nat) (ht : Reachable t)
    (hnp : ¬ ∃ k : Nat, t.num_elements = 2 ^ k) :
    (t.add_element v).leafs = t.leafs ++ [hash_one v, hash_one v] ∧
    (t.add_element v).num_elements = t.num_elements + 2 := by
  have heven := reachable_num_even t ht
  have hadd := add_element_of_even t v heven
  constructor
  · rw [hadd, mk_buildLevels_leafs]
  · rw [hadd, mk_buildLevels_num]
    simp [MerkleTree.num_elements]

/-- Witness for C3's amended behavior at the 6-leaf tree over
`[1, 2, 3, 4, 5, 6]` appending the value 7. -/
theorem C3_amended_no_precondition_witness :
    Reachable (MerkleTree.create_from_values [1, 2, 3, 4, 5, 6]) ∧
    (¬ ∃ k : Nat, (MerkleTree.create_from_values [1, 2, 3, 4, 5, 6]).num_elements = 2 ^ k) ∧
    (((MerkleTree.create_from_values [1, 2, 3, 4, 5, 6]).add_element 7).leafs =
      (MerkleTree.create_from_values [1, 2, 3, 4, 5, 6]).leafs ++ [hash_one 7, hash_one 7] ∧
    ((MerkleTree.create_from_values [1, 2, 3, 4, 5, 6]).add_element 7).num_elements =
      (MerkleTree.create_from_values [1, 2, 3, 4, 5, 6]).num_elements + 2) :=
  ⟨Reachable.create [1, 2, 3, 4, 5, 6], fun ⟨k, hk⟩ => six_not_two_pow ⟨k, hk⟩,
    C3_amended_no_precondition _ 7 (Reachable.create [1, 2, 3, 4, 5, 6])
      (fun ⟨k, hk⟩ => six_not_two_pow ⟨k, hk⟩)⟩
